import Mathlib

/-!
# Star catalog: pairwise angular-distance aggregation (`src/main.c`)

A shallow embedding of the aggregation engine of `main.c`:

* the four global accumulators `min`, `max`, `mean`, `count` and the block that
  updates them under `pthread_mutex_lock` (lines 80-93);
* the `distance_calculated` matrix and the double loop of
  `determineAverageAngularDistance` (lines 63-97);
* the thread creation/join loops and the `-t` option scan of `main`;
* a step relation for workers that run concurrently, one step per access to
  shared data, with the locked block as a single step.

Arithmetic on `double` is taken as exact and modelled in `ℚ`.  The constant
`NUM_STARS` is a parameter `N` of the model, and `calculateAngularDistance`
applied to rows `i` and `j` of `star_array` (its code lives in `utility.c`) is a
parameter `dist : Nat → Nat → ℚ`.
-/

namespace StarCatalog

/-! ## Aggregate state -/

/-- Value of `FLT_MAX` from `float.h`: `(2 - 2^-23) * 2^127`. -/
def FLT_MAX : ℚ := 340282346638528859811704183484516925440

/-- Value of `FLT_MIN` from `float.h`: the least positive normal float, `2^-126`. -/
def FLT_MIN : ℚ := 1 / 85070591730234615865843651857942052864

/-- The four global accumulators of `main.c` (lines 46-49).  `count` is a
`uint64_t`; the loops that increment it are indexed by `uint32_t` values, so
fewer than `2^64` increments happen in a run and the counter is a `Nat`. -/
structure Agg where
  min : ℚ
  max : ℚ
  mean : ℚ
  count : Nat
deriving DecidableEq

/-- Initial values of the globals: `min = FLT_MAX`, `max = FLT_MIN`,
`mean = 0.0`, `count = 0`. -/
def initAgg : Agg := ⟨FLT_MAX, FLT_MIN, 0, 0⟩

/-- The block executed between `pthread_mutex_lock` and `pthread_mutex_unlock`
(lines 80-93): `if (min > distance) min = distance; else if (max < distance)
max = distance; count++; mean = mean + (distance - mean) / count;`. -/
def lockedUpdate (a : Agg) (distance : ℚ) : Agg :=
  let min1 := if a.min > distance then distance else a.min
  let max1 := if a.min > distance then a.max
    else if a.max < distance then distance else a.max
  let count1 := a.count + 1
  { min := min1, max := max1, mean := a.mean + (distance - a.mean) / (count1 : ℚ),
    count := count1 }

/-! ## Shared state and the worker -/

/-- Shared state of a run: the `distance_calculated` matrix (cells hold 0 or 1),
the accumulators, and a history variable `log` that records, in order, every
index pair `(i, j)` whose distance was folded into the accumulators.  No
statement of the program reads `log`. -/
structure State where
  distance_calculated : Nat → Nat → Bool
  agg : Agg
  log : List (Nat × Nat)

/-- The state `main` establishes before creating threads: the matrix zeroed by
the loops at lines 121-127 and the accumulators at their initial values. -/
def initState : State :=
  { distance_calculated := fun _ _ => false, agg := initAgg, log := [] }

/-- Assignment `m[i][j] = 1`. -/
def setCell (m : Nat → Nat → Bool) (i j : Nat) : Nat → Nat → Bool :=
  fun a b => if a = i ∧ b = j then true else m a b

/-- Body of the inner loop (lines 73-94) for one `(i, j)`. -/
def cellStep (dist : Nat → Nat → ℚ) (i j : Nat) (s : State) : State :=
  if i ≠ j ∧ s.distance_calculated i j = false then
    { distance_calculated := setCell (setCell s.distance_calculated i j) j i,
      agg := lockedUpdate s.agg (dist i j),
      log := s.log ++ [(i, j)] }
  else s

/-- The inner loop `for (j = 0; j < NUM_STARS; j++)` for a fixed row `i`. -/
def rowLoop (N : Nat) (dist : Nat → Nat → ℚ) (i : Nat) (s : State) : State :=
  (List.range N).foldl (fun st j => cellStep dist i j st) s

/-- Row range start of worker `numThread`: `NUM_STARS / max_threads * numThread`. -/
def rangeStart (N max_threads numThread : Nat) : Nat :=
  N / max_threads * numThread

/-- Row range end of worker `numThread`: `start + NUM_STARS / max_threads`. -/
def rangeEnd (N max_threads numThread : Nat) : Nat :=
  rangeStart N max_threads numThread + N / max_threads

/-- One worker run to completion (lines 63-97).  The worker is only ever
started with `max_threads ≥ 1`: `main` creates no thread when `max_threads = 0`. -/
def determineAverageAngularDistance (N max_threads : Nat) (dist : Nat → Nat → ℚ)
    (numThread : Nat) (s : State) : State :=
  let start := rangeStart N max_threads numThread
  let end1 := rangeEnd N max_threads numThread
  (List.range' start (end1 - start)).foldl (fun st i => rowLoop N dist i st) s

/-- The workers run to completion one after another in the given order of
worker ids. -/
def runOrder (N max_threads : Nat) (dist : Nat → Nat → ℚ) (order : List Nat)
    (s : State) : State :=
  order.foldl (fun st k => determineAverageAngularDistance N max_threads dist k st) s

/-- The workers `0 .. max_threads - 1` of `main` (lines 190-198), each run to
completion in creation order, from the initial state. -/
def runWorkers (N max_threads : Nat) (dist : Nat → Nat → ℚ) : State :=
  runOrder N max_threads dist (List.range max_threads) initState

/-- Pairwise distances of the four-point fixture, in degrees. -/
def fixtureDist (i j : Nat) : ℚ :=
  if (i = 0 ∧ j = 2) ∨ (i = 2 ∧ j = 0) then 180 else 90

/-- The `observe` transaction as the specification words it: `count ← count + 1;
if value < min then min ← value; if value > max then max ← value;
mean ← mean + (value − mean) / count`. -/
def observeSpec (a : Agg) (value : ℚ) : Agg :=
  let count1 := a.count + 1
  { min := if value < a.min then value else a.min,
    max := if value > a.max then value else a.max,
    mean := a.mean + (value - a.mean) / (count1 : ℚ),
    count := count1 }

/-- The test of line 73: `i != j && distance_calculated[i][j] == 0`. -/
def passTest (s : State) (i j : Nat) : Bool :=
  decide (i ≠ j) && !s.distance_calculated i j

/-- Columns of row `i` that pass the test of line 73 when the row is entered in
state `s`, for the first `n` columns. -/
def newCols (n i : Nat) (s : State) : List Nat :=
  (List.range n).filter (passTest s i)

/-- Rows visited when the workers run to completion in the given order. -/
def rowsOf (N max_threads : Nat) (order : List Nat) : List Nat :=
  order.flatMap (fun k => List.range' (rangeStart N max_threads k) (N / max_threads))

/-- Number of pairs folded while the first `m` distinct rows are processed from
a zeroed matrix: the `t`-th row processed meets `N - 1 - t` unmarked columns. -/
def foldedAfter (N : Nat) : Nat → Nat
  | 0 => 0
  | m + 1 => foldedAfter N m + (N - 1 - m)

/-- Number of entries of the log that fold the unordered pair `{a, b}`, in
either orientation. -/
def timesFolded (log : List (Nat × Nat)) (a b : Nat) : Nat :=
  log.countP (fun p => decide (p = (a, b) ∨ p = (b, a)))

/-- Invariant of a sequential run from the initial state, after the rows in
`done` have been processed: which cells are marked, what the accumulators hold,
and which pairs have been folded. -/
structure RowsDone (N : Nat) (dist : Nat → Nat → ℚ) (done : List Nat) (s : State) : Prop where
  marked : ∀ a b, s.distance_calculated a b = true ↔
    a ≠ b ∧ a < N ∧ b < N ∧ (a ∈ done ∨ b ∈ done)
  folded : s.agg = (s.log.map (fun p => dist p.1 p.2)).foldl lockedUpdate initAgg
  logged : ∀ a b, (a, b) ∈ s.log → a ∈ done ∧ b < N ∧ a ≠ b
  once : ∀ a b, a ≠ b → a < N → b < N → (a ∈ done ∨ b ∈ done) →
    timesFolded s.log a b = 1
  size : s.log.length = foldedAfter N done.length

/-! ## Concurrent execution of the workers -/

/-- Program points of a worker between two accesses to shared data: about to
run the loop tests and the test of line 73; about to run line 77; about to run
line 78; about to run the locked block of lines 80-93; returned. -/
inductive Loc where
  | check
  | mark1
  | mark2
  | update
  | finished
deriving DecidableEq

/-- Local variables `i`, `j` of a worker and its program point. -/
structure Thread where
  i : Nat
  j : Nat
  loc : Loc
deriving DecidableEq

/-- A worker at its entry: `i = start`, `j = 0`. -/
def threadStart (N max_threads numThread : Nat) : Thread :=
  { i := rangeStart N max_threads numThread, j := 0, loc := Loc.check }

/-- One step of worker `numThread`.  At `check` the worker evaluates the loop
conditions and, inside both loops, the test of line 73 (one read of
`distance_calculated[i][j]`); `mark1` and `mark2` are the two stores of lines
77 and 78; `update` is the block between `pthread_mutex_lock` and
`pthread_mutex_unlock`, which the mutex makes indivisible with respect to the
same block in other workers, followed by `j++`. -/
def stepThread (N max_threads : Nat) (dist : Nat → Nat → ℚ) (numThread : Nat)
    (t : Thread) (s : State) : Thread × State :=
  match t.loc with
  | Loc.check =>
    if t.i < rangeEnd N max_threads numThread then
      if t.j < N then
        if t.i ≠ t.j ∧ s.distance_calculated t.i t.j = false then
          ({ t with loc := Loc.mark1 }, s)
        else ({ t with j := t.j + 1 }, s)
      else ({ t with i := t.i + 1, j := 0 }, s)
    else ({ t with loc := Loc.finished }, s)
  | Loc.mark1 =>
    ({ t with loc := Loc.mark2 },
     { s with distance_calculated := setCell s.distance_calculated t.i t.j })
  | Loc.mark2 =>
    ({ t with loc := Loc.update },
     { s with distance_calculated := setCell s.distance_calculated t.j t.i })
  | Loc.update =>
    ({ t with j := t.j + 1, loc := Loc.check },
     { s with agg := lockedUpdate s.agg (dist t.i t.j), log := s.log ++ [(t.i, t.j)] })
  | Loc.finished => (t, s)

/-- The first `n` steps of worker `numThread` while no other worker runs. -/
def stepsAlone (N max_threads : Nat) (dist : Nat → Nat → ℚ) (numThread : Nat) :
    Nat → Thread × State → Thread × State
  | 0, p => p
  | n + 1, p =>
    stepsAlone N max_threads dist numThread n (stepThread N max_threads dist numThread p.1 p.2)

/-- The shared state together with the local state of every worker. -/
structure Sys where
  shared : State
  threads : List Thread

/-- The system once `main` has created the `max_threads` workers. -/
def initSys (N max_threads : Nat) : Sys :=
  { shared := initState,
    threads := (List.range max_threads).map (threadStart N max_threads) }

/-- The scheduler lets worker `k` take one step. -/
def stepSys (N max_threads : Nat) (dist : Nat → Nat → ℚ) (k : Nat) (sys : Sys) : Sys :=
  match sys.threads.get? k with
  | none => sys
  | some t =>
    { shared := (stepThread N max_threads dist k t sys.shared).2,
      threads := sys.threads.set k (stepThread N max_threads dist k t sys.shared).1 }

/-- An interleaving: the workers take steps in the order the schedule lists. -/
def runSchedule (N max_threads : Nat) (dist : Nat → Nat → ℚ) (schedule : List Nat)
    (sys : Sys) : Sys :=
  schedule.foldl (fun st k => stepSys N max_threads dist k st) sys

/-- An interleaving of two workers on a two-row catalog in which worker 1 runs
the test of line 73 for `(1, 0)` after worker 0 passed it for `(0, 1)` and
before worker 0 stored the marks. -/
def racySchedule : List Nat := [0, 0, 1, 0, 0, 0, 0, 0, 1, 1, 1, 1, 1, 1]

/-- Worker 0 runs to completion, then worker 1. -/
def serialSchedule : List Nat := [0, 0, 0, 0, 0, 0, 0, 1, 1, 1, 1, 1]

/-! ## Option scan of `main` -/

/-- White space as `isspace` sees it in the C locale. -/
def isSpace (c : Char) : Bool :=
  c.toNat = 32 || (9 ≤ c.toNat && c.toNat ≤ 13)

/-- Value of the leading decimal digits of a text, accumulated left to right. -/
def digitsValue : List Char → Nat → Nat
  | [], acc => acc
  | c :: cs, acc =>
    if 48 ≤ c.toNat ∧ c.toNat ≤ 57 then digitsValue cs (10 * acc + (c.toNat - 48)) else acc

/-- The number a decimal text denotes for `atoi`: leading white space is
skipped, an optional sign is read, then the decimal digits up to the first
character that is not one. -/
def decimalValue (s : String) : Int :=
  match s.toList.dropWhile isSpace with
  | [] => 0
  | c :: cs =>
    if c.toNat = 45 then - (digitsValue cs 0 : Int)
    else if c.toNat = 43 then (digitsValue cs 0 : Int)
    else (digitsValue (c :: cs) 0 : Int)

/-- The C library function `atoi`.  It returns the denoted number when that
number is representable in a 32-bit `int`; otherwise its behaviour is undefined
by the C standard and the result is `none`. -/
def atoi (s : String) : Option Int :=
  if -2147483648 ≤ decimalValue s ∧ decimalValue s ≤ 2147483647 then
    some (decimalValue s)
  else none

/-- Conversion of an `int` to `uint32_t` on assignment to `max_threads`. -/
def toUInt32 (v : Int) : Nat := (v % 4294967296).toNat

/-- Result of the option scan (lines 129-141): `exit(0)` after the help text;
a value stored in `max_threads`; `atoi(argv[argc])` on the null pointer that
ends `argv` when `-t` is the last argument; or `atoi` on a text whose value
does not fit an `int`.  The last two have undefined behaviour. -/
inductive Scan where
  | helpExit
  | threads (max_threads : Nat)
  | nullArgument
  | valueOutOfRange
deriving DecidableEq

/-- The loop `for (n = 1; n < argc; n++)` over `argv[1 ..]`; `max_threads`
keeps its initial value 1 when no `-t` is met. -/
def scanArgs : List String → Scan
  | [] => Scan.threads 1
  | a :: rest =>
    if a = "-help" then Scan.helpExit
    else if a = "-t" then
      match rest with
      | [] => Scan.nullArgument
      | v :: _ =>
        match atoi v with
        | some x => Scan.threads (toUInt32 x)
        | none => Scan.valueOutOfRange
    else scanArgs rest

/-- What a run of `main` ends in, where that is determined: `exit(EXIT_FAILURE)`
after a failed `malloc`, `exit(0)` after the help text, `exit(1)` on an
unreadable data file or a line with more than three columns, or the printed
`mean`, `min`, `max`. -/
inductive Outcome where
  | allocationError
  | helpExit
  | inputError
  | report (mean min max : ℚ)
deriving DecidableEq

/-- The function `main`.  `allocated` tells whether the `malloc` of line 108
succeeded and `catalogRead` whether the data file could be opened and every
line had at most three columns.  The result is `none` where the source does not
determine it: on the undefined behaviour of the scan, and when `max_threads` is
2 or more, since the workers then run concurrently (and the array `tid` of
`max_threads` elements has to fit the stack).  With `max_threads = 0` the
creation and join loops run zero times and the accumulators are printed as
initialised; with `max_threads = 1` the single worker runs to completion before
the join returns. -/
def mainOutcome (N : Nat) (dist : Nat → Nat → ℚ) (allocated catalogRead : Bool)
    (argv : List String) : Option Outcome :=
  if allocated then
    match scanArgs argv.tail with
    | Scan.helpExit => some Outcome.helpExit
    | Scan.nullArgument => none
    | Scan.valueOutOfRange => none
    | Scan.threads T =>
      if catalogRead then
        if T ≤ 1 then
          some (Outcome.report (runWorkers N T dist).agg.mean (runWorkers N T dist).agg.min
            (runWorkers N T dist).agg.max)
        else none
      else some Outcome.inputError
  else some Outcome.allocationError

/-! ## The accumulators -/

theorem lockedUpdate_count (a : Agg) (d : ℚ) : (lockedUpdate a d).count = a.count + 1 := rfl

theorem lockedUpdate_mean (a : Agg) (d : ℚ) :
    (lockedUpdate a d).mean = a.mean + (d - a.mean) / ((a.count + 1 : Nat) : ℚ) := rfl

theorem lockedUpdate_min (a : Agg) (d : ℚ) :
    (lockedUpdate a d).min = if d < a.min then d else a.min := rfl

/-- Whenever the stored bounds are ordered (`min ≤ max`), the program's update
and the specified `observe` agree. -/
theorem lockedUpdate_eq_observeSpec_of_le (a : Agg) (d : ℚ) (h : a.min ≤ a.max) :
    lockedUpdate a d = observeSpec a d := by
  unfold lockedUpdate observeSpec
  by_cases h1 : a.min > d
  · have h2 : ¬ d > a.max := not_lt.mpr (le_of_lt (lt_of_lt_of_le h1 h))
    simp [h1, h2]
  · have h3 : ¬ d < a.min := h1
    simp [h3]

theorem foldl_lockedUpdate_count (l : List ℚ) (a : Agg) :
    (l.foldl lockedUpdate a).count = a.count + l.length := by
  induction l generalizing a with
  | nil => simp
  | cons d t ih => simp [ih, lockedUpdate_count]; omega

theorem foldl_lockedUpdate_mean_mul (l : List ℚ) (a : Agg) :
    (l.foldl lockedUpdate a).mean * ((a.count + l.length : Nat) : ℚ)
      = a.mean * (a.count : ℚ) + l.sum := by
  induction l generalizing a with
  | nil => simp
  | cons d t ih =>
    have h := ih (lockedUpdate a d)
    rw [lockedUpdate_count, lockedUpdate_mean] at h
    have hc : ((a.count + 1 : Nat) : ℚ) ≠ 0 := Nat.cast_ne_zero.mpr (Nat.succ_ne_zero a.count)
    have e : a.count + (d :: t).length = a.count + 1 + t.length := by simp; omega
    rw [List.foldl_cons, e, h, List.sum_cons]
    field_simp
    ring

/-- Claim C7.  In exact arithmetic, folding a non-empty sequence of values with
the program's update from `mean = 0`, `count = 0` ends with `count` equal to the
number of values and `mean` equal to their sum divided by that number; hence
every reordering of the values gives the same `count` and `mean`. -/
theorem incremental_mean_eq_sum_div_length (mn mx : ℚ) (l : List ℚ) (hl : l ≠ []) :
    (l.foldl lockedUpdate ⟨mn, mx, 0, 0⟩).count = l.length ∧
    (l.foldl lockedUpdate ⟨mn, mx, 0, 0⟩).mean = l.sum / (l.length : ℚ) ∧
    ∀ l2 : List ℚ, l2.Perm l →
      (l2.foldl lockedUpdate ⟨mn, mx, 0, 0⟩).count = (l.foldl lockedUpdate ⟨mn, mx, 0, 0⟩).count ∧
      (l2.foldl lockedUpdate ⟨mn, mx, 0, 0⟩).mean = (l.foldl lockedUpdate ⟨mn, mx, 0, 0⟩).mean := by
  have key : ∀ l1 : List ℚ, l1 ≠ [] →
      (l1.foldl lockedUpdate ⟨mn, mx, 0, 0⟩).count = l1.length ∧
      (l1.foldl lockedUpdate ⟨mn, mx, 0, 0⟩).mean = l1.sum / (l1.length : ℚ) := by
    intro l1 h1
    have hc := foldl_lockedUpdate_count l1 ⟨mn, mx, 0, 0⟩
    have hm := foldl_lockedUpdate_mean_mul l1 ⟨mn, mx, 0, 0⟩
    simp only [Nat.zero_add, Nat.cast_zero, mul_zero, zero_add] at hc hm
    have hn : (l1.length : ℚ) ≠ 0 := by
      exact_mod_cast (List.length_pos.mpr h1).ne'
    exact ⟨hc, by rw [eq_div_iff hn]; exact hm⟩
  refine ⟨(key l hl).1, (key l hl).2, ?_⟩
  intro l2 hp
  have h2 : l2 ≠ [] := by
    intro h0
    rw [h0] at hp
    exact hl (List.Perm.nil_eq hp).symm
  rw [(key l2 h2).1, (key l2 h2).2, (key l hl).1, (key l hl).2, hp.length_eq, hp.sum_eq]
  exact ⟨rfl, rfl⟩

theorem incremental_mean_eq_sum_div_length_witness :
    ([90, 180, 90] : List ℚ) ≠ [] ∧
    (([90, 180, 90] : List ℚ).foldl lockedUpdate ⟨FLT_MAX, FLT_MIN, 0, 0⟩).count = 3 ∧
    (([90, 180, 90] : List ℚ).foldl lockedUpdate ⟨FLT_MAX, FLT_MIN, 0, 0⟩).mean = 120 :=
  ⟨by simp,
   (incremental_mean_eq_sum_div_length FLT_MAX FLT_MIN [90, 180, 90] (by simp)).1,
   by rw [(incremental_mean_eq_sum_div_length FLT_MAX FLT_MIN [90, 180, 90] (by simp)).2.1]
      norm_num⟩

/-- Claim C4.  At the initial accumulators and the value 90 the program's update
lowers `min` to 90 and leaves `max` at `FLT_MIN` although `90 > max`; the
specified `observe` raises `max` to 90 there, so the two disagree. -/
theorem lockedUpdate_skips_max_when_min_lowered :
    initAgg.max < 90 ∧
    (lockedUpdate initAgg 90).min = 90 ∧
    (lockedUpdate initAgg 90).max = FLT_MIN ∧
    (observeSpec initAgg 90).max = 90 ∧
    (lockedUpdate initAgg 90).max ≠ (observeSpec initAgg 90).max := by
  simp [lockedUpdate, observeSpec, initAgg, FLT_MAX, FLT_MIN]
  norm_num

/-- Claim C5.  Folding the one-element sequence `[90]` (a distance in
`[0, 180]`) from the initial accumulators gives `min = 90`, `mean = 90` and
`max = FLT_MIN`, so `mean ≤ max` does not hold. -/
theorem mean_exceeds_max_after_first_observation :
    (0 : ℚ) ≤ 90 ∧ (90 : ℚ) ≤ 180 ∧
    (([90] : List ℚ).foldl lockedUpdate initAgg).min = 90 ∧
    (([90] : List ℚ).foldl lockedUpdate initAgg).mean = 90 ∧
    (([90] : List ℚ).foldl lockedUpdate initAgg).max = FLT_MIN ∧
    ¬ (([90] : List ℚ).foldl lockedUpdate initAgg).mean
        ≤ (([90] : List ℚ).foldl lockedUpdate initAgg).max := by
  simp [lockedUpdate, initAgg, FLT_MAX, FLT_MIN]
  norm_num

/-! ## The inner loop -/

theorem cellStep_of_pass (dist : Nat → Nat → ℚ) (i j : Nat) (s : State)
    (h : i ≠ j ∧ s.distance_calculated i j = false) :
    cellStep dist i j s =
      { distance_calculated := setCell (setCell s.distance_calculated i j) j i,
        agg := lockedUpdate s.agg (dist i j),
        log := s.log ++ [(i, j)] } := by
  unfold cellStep
  rw [if_pos h]

theorem cellStep_of_skip (dist : Nat → Nat → ℚ) (i j : Nat) (s : State)
    (h : ¬ (i ≠ j ∧ s.distance_calculated i j = false)) :
    cellStep dist i j s = s := by
  unfold cellStep
  rw [if_neg h]

theorem setCell_true_iff (m : Nat → Nat → Bool) (i j a b : Nat) :
    setCell m i j a b = true ↔ (a = i ∧ b = j) ∨ m a b = true := by
  unfold setCell
  by_cases h : a = i ∧ b = j
  · simp [h]
  · simp [h]

/-- State after the first `n` iterations of the inner loop on row `i`. -/
theorem rowPrefix_spec (dist : Nat → Nat → ℚ) (i : Nat) (s : State) (n : Nat) :
    (∀ a b, ((List.range n).foldl (fun st j => cellStep dist i j st) s).distance_calculated a b
        = true ↔
      (s.distance_calculated a b = true ∨
        (a = i ∧ b < n ∧ b ≠ i ∧ s.distance_calculated i b = false) ∨
        (b = i ∧ a < n ∧ a ≠ i ∧ s.distance_calculated i a = false))) ∧
    ((List.range n).foldl (fun st j => cellStep dist i j st) s).log
      = s.log ++ (newCols n i s).map (fun j => (i, j)) ∧
    ((List.range n).foldl (fun st j => cellStep dist i j st) s).agg
      = ((newCols n i s).map (fun j => dist i j)).foldl lockedUpdate s.agg := by
  induction n with
  | zero => simp [newCols]
  | succ n ih =>
    obtain ⟨ih1, ih2, ih3⟩ := ih
    rw [List.range_succ, List.foldl_append, List.foldl_cons, List.foldl_nil]
    have hcell : ((List.range n).foldl (fun st j => cellStep dist i j st) s).distance_calculated i n
        = s.distance_calculated i n := by
      rw [Bool.eq_iff_iff, ih1]
      constructor
      · rintro (h | ⟨_, h, _⟩ | ⟨h1, h2, _⟩)
        · exact h
        · omega
        · omega
      · intro h
        exact Or.inl h
    by_cases hc : i ≠ n ∧ s.distance_calculated i n = false
    · have hc2 : i ≠ n ∧
          ((List.range n).foldl (fun st j => cellStep dist i j st) s).distance_calculated i n
            = false := ⟨hc.1, by rw [hcell]; exact hc.2⟩
      rw [cellStep_of_pass dist i n _ hc2]
      have hp : passTest s i n = true := by
        unfold passTest
        rw [hc.2, decide_eq_true hc.1]
        rfl
      have hnew : newCols (n + 1) i s = newCols n i s ++ [n] := by
        unfold newCols
        rw [List.range_succ, List.filter_append, List.filter_cons_of_pos hp, List.filter_nil]
      refine ⟨?_, ?_, ?_⟩
      · intro a b
        simp only [setCell_true_iff, ih1]
        constructor
        · rintro (⟨h1, h2⟩ | ⟨h1, h2⟩ | h | ⟨h1, h2, h3, h4⟩ | ⟨h1, h2, h3, h4⟩)
          · right; right
            exact ⟨h2, by omega, by omega, by rw [h1]; exact hc.2⟩
          · right; left
            exact ⟨h1, by omega, by omega, by rw [h2]; exact hc.2⟩
          · left; exact h
          · right; left; exact ⟨h1, by omega, h3, h4⟩
          · right; right; exact ⟨h1, by omega, h3, h4⟩
        · rintro (h | ⟨h1, h2, h3, h4⟩ | ⟨h1, h2, h3, h4⟩)
          · right; right; left; exact h
          · by_cases hb : b = n
            · right; left; exact ⟨h1, hb⟩
            · right; right; right; left; exact ⟨h1, by omega, h3, h4⟩
          · by_cases ha : a = n
            · left; exact ⟨ha, h1⟩
            · right; right; right; right; exact ⟨h1, by omega, h3, h4⟩
      · show _ ++ [(i, n)] = _
        rw [hnew, ih2, List.map_append, List.append_assoc]
        rfl
      · show lockedUpdate _ (dist i n) = _
        rw [hnew, ih3, List.map_append, List.foldl_append]
        rfl
    · have hc2 : ¬ (i ≠ n ∧
          ((List.range n).foldl (fun st j => cellStep dist i j st) s).distance_calculated i n
            = false) := by rw [hcell]; exact hc
      rw [cellStep_of_skip dist i n _ hc2]
      have hp : ¬ (passTest s i n = true) := by
        unfold passTest
        intro h
        rw [Bool.and_eq_true, decide_eq_true_eq] at h
        apply hc
        refine ⟨h.1, ?_⟩
        cases hv : s.distance_calculated i n
        · rfl
        · rw [hv] at h
          exact absurd h.2 (by decide)
      have hnew : newCols (n + 1) i s = newCols n i s := by
        unfold newCols
        rw [List.range_succ, List.filter_append, List.filter_cons_of_neg hp, List.filter_nil,
          List.append_nil]
      have hskip : ∀ b, b < n + 1 → b ≠ i → s.distance_calculated i b = false → b < n := by
        intro b hb hbi hv
        by_contra hbn
        have hbe : b = n := by omega
        exact hc ⟨by omega, by rw [← hbe]; exact hv⟩
      refine ⟨?_, ?_, ?_⟩
      · intro a b
        rw [ih1]
        constructor
        · rintro (h | ⟨h1, h2, h3, h4⟩ | ⟨h1, h2, h3, h4⟩)
          · left; exact h
          · right; left; exact ⟨h1, by omega, h3, h4⟩
          · right; right; exact ⟨h1, by omega, h3, h4⟩
        · rintro (h | ⟨h1, h2, h3, h4⟩ | ⟨h1, h2, h3, h4⟩)
          · left; exact h
          · right; left; exact ⟨h1, hskip b h2 h3 h4, h3, h4⟩
          · right; right; exact ⟨h1, hskip a h2 h3 h4, h3, h4⟩
      · rw [hnew, ih2]
      · rw [hnew, ih3]

theorem mem_newCols (n i : Nat) (s : State) (j : Nat) :
    j ∈ newCols n i s ↔ j < n ∧ i ≠ j ∧ s.distance_calculated i j = false := by
  unfold newCols passTest
  rw [List.mem_filter, List.mem_range, Bool.and_eq_true, decide_eq_true_eq]
  cases s.distance_calculated i j <;> simp

theorem nodup_newCols (n i : Nat) (s : State) : (newCols n i s).Nodup :=
  List.Nodup.filter _ (List.nodup_range n)

theorem countP_eq_ite_of_nodup (l : List Nat) (hnd : l.Nodup) (c : Nat) (p : Nat → Bool)
    (hp : ∀ j ∈ l, (p j = true ↔ j = c)) :
    l.countP p = if c ∈ l then 1 else 0 := by
  induction l with
  | nil => simp
  | cons x t ih =>
    obtain ⟨hx, ht⟩ := List.nodup_cons.mp hnd
    have iht := ih ht (fun j hj => hp j (List.mem_cons_of_mem x hj))
    by_cases hxc : x = c
    · have hpx : p x = true := (hp x (List.mem_cons_self x t)).mpr hxc
      have hct : c ∉ t := by rw [← hxc]; exact hx
      rw [List.countP_cons_of_pos p t hpx, iht, if_neg hct, if_pos (by rw [hxc]; exact List.mem_cons_self c t)]
    · have hpx : ¬ p x = true := fun h => hxc ((hp x (List.mem_cons_self x t)).mp h)
      rw [List.countP_cons_of_neg p t hpx, iht]
      by_cases hct : c ∈ t
      · rw [if_pos hct, if_pos (List.mem_cons_of_mem x hct)]
      · have : c ∉ x :: t := by
          intro h
          rcases List.mem_cons.mp h with h | h
          · exact hxc h.symm
          · exact hct h
        rw [if_neg hct, if_neg this]

theorem timesFolded_append (l1 l2 : List (Nat × Nat)) (a b : Nat) :
    timesFolded (l1 ++ l2) a b = timesFolded l1 a b + timesFolded l2 a b := by
  unfold timesFolded
  rw [List.countP_append]

theorem timesFolded_newPairs (n i : Nat) (s : State) (a b : Nat) (hab : a ≠ b) :
    timesFolded ((newCols n i s).map (fun j => (i, j))) a b
      = if (a = i ∧ b ∈ newCols n i s) ∨ (b = i ∧ a ∈ newCols n i s) then 1 else 0 := by
  unfold timesFolded
  rw [List.countP_map]
  by_cases ha : a = i
  · have hb : ¬ b = i := fun h => hab (by rw [ha, h])
    rw [countP_eq_ite_of_nodup (newCols n i s) (nodup_newCols n i s) b]
    · by_cases hm : b ∈ newCols n i s
      · rw [if_pos hm, if_pos (Or.inl ⟨ha, hm⟩)]
      · rw [if_neg hm, if_neg]
        rintro (⟨_, h⟩ | ⟨h, _⟩)
        · exact hm h
        · exact hb h
    · intro j _
      simp only [Function.comp, decide_eq_true_eq, Prod.mk.injEq]
      constructor
      · rintro (⟨_, h⟩ | ⟨h, _⟩)
        · exact h
        · exact absurd h.symm hb
      · intro h
        exact Or.inl ⟨ha.symm, h⟩
  · by_cases hb : b = i
    · rw [countP_eq_ite_of_nodup (newCols n i s) (nodup_newCols n i s) a]
      · by_cases hm : a ∈ newCols n i s
        · rw [if_pos hm, if_pos (Or.inr ⟨hb, hm⟩)]
        · rw [if_neg hm, if_neg]
          rintro (⟨h, _⟩ | ⟨_, h⟩)
          · exact ha h
          · exact hm h
      · intro j _
        simp only [Function.comp, decide_eq_true_eq, Prod.mk.injEq]
        constructor
        · rintro (⟨h, _⟩ | ⟨_, h⟩)
          · exact absurd h.symm ha
          · exact h
        · intro h
          exact Or.inr ⟨hb.symm, h⟩
    · rw [if_neg]
      · rw [List.countP_eq_zero]
        intro j _
        simp only [Function.comp, decide_eq_true_eq, Prod.mk.injEq]
        rintro (⟨h, _⟩ | ⟨h, _⟩)
        · exact ha h.symm
        · exact hb h.symm
      · rintro (⟨h, _⟩ | ⟨h, _⟩)
        · exact ha h
        · exact hb h

/-- The rows not yet listed in a duplicate-free list of rows below `N`. -/
theorem length_filter_not_mem (N : Nat) (L : List Nat) (hnd : L.Nodup)
    (hlt : ∀ r ∈ L, r < N) :
    ((List.range N).filter (fun j => decide (j ∉ L))).length = N - L.length := by
  have hnd2 : ((List.range N).filter (fun j => decide (j ∉ L))).Nodup :=
    List.Nodup.filter _ (List.nodup_range N)
  rw [← List.toFinset_card_of_nodup hnd2, ← List.toFinset_card_of_nodup hnd]
  have he : ((List.range N).filter (fun j => decide (j ∉ L))).toFinset
      = Finset.range N \ L.toFinset := by
    ext x
    simp
  have hsub : L.toFinset ⊆ Finset.range N := by
    intro x hx
    rw [List.mem_toFinset] at hx
    exact Finset.mem_range.mpr (hlt x hx)
  rw [he, Finset.card_sdiff hsub, Finset.card_range]

theorem length_newCols (N : Nat) (dist : Nat → Nat → ℚ) (done : List Nat) (s : State) (i : Nat)
    (hinv : RowsDone N dist done s) (hi : i < N) (hid : i ∉ done) (hnd : done.Nodup)
    (hlt : ∀ r ∈ done, r < N) :
    (newCols N i s).length = N - 1 - done.length := by
  have hfil : newCols N i s = (List.range N).filter (fun j => decide (j ∉ i :: done)) := by
    unfold newCols
    apply List.filter_congr
    intro j hj
    rw [List.mem_range] at hj
    unfold passTest
    by_cases hij : i = j
    · simp [hij]
    · by_cases hjd : j ∈ done
      · have : s.distance_calculated i j = true :=
          (hinv.marked i j).mpr ⟨hij, hi, hj, Or.inr hjd⟩
        have hji : ¬ j = i := fun h => hij h.symm
        simp [hij, hji, hjd, this]
      · have : s.distance_calculated i j = false := by
          cases hv : s.distance_calculated i j
          · rfl
          · obtain ⟨_, _, _, h4⟩ := (hinv.marked i j).mp hv
            rcases h4 with h4 | h4
            · exact absurd h4 hid
            · exact absurd h4 hjd
        have hji : ¬ j = i := fun h => hij h.symm
        simp [hij, hji, hjd, this]
  rw [hfil, length_filter_not_mem N (i :: done) (List.nodup_cons.mpr ⟨hid, hnd⟩)]
  · simp
    omega
  · intro r hr
    rcases List.mem_cons.mp hr with h | h
    · rw [h]; exact hi
    · exact hlt r h

/-! ## Processing rows one after another -/

theorem rowsDone_init (N : Nat) (dist : Nat → Nat → ℚ) : RowsDone N dist [] initState where
  marked := by
    intro a b
    simp [initState]
  folded := rfl
  logged := by
    intro a b h
    simp [initState] at h
  once := by
    intro a b _ _ _ h
    simp at h
  size := rfl

theorem RowsDone.unmarked {N : Nat} {dist : Nat → Nat → ℚ} {done : List Nat} {s : State}
    (hinv : RowsDone N dist done s) (x y : Nat) (hx : x ∉ done) (hy : y ∉ done) :
    s.distance_calculated x y = false := by
  cases hv : s.distance_calculated x y
  · rfl
  · obtain ⟨_, _, _, h4⟩ := (hinv.marked x y).mp hv
    rcases h4 with h4 | h4
    · exact absurd h4 hx
    · exact absurd h4 hy

theorem timesFolded_eq_zero_of_not_done {N : Nat} {dist : Nat → Nat → ℚ} {done : List Nat}
    {s : State} (hinv : RowsDone N dist done s) (a b : Nat) (ha : a ∉ done) (hb : b ∉ done) :
    timesFolded s.log a b = 0 := by
  unfold timesFolded
  rw [List.countP_eq_zero]
  rintro ⟨x, y⟩ hp
  simp only [decide_eq_true_eq, Prod.mk.injEq]
  rintro (⟨h1, h2⟩ | ⟨h1, h2⟩)
  · exact ha (by rw [← h1]; exact (hinv.logged x y hp).1)
  · exact hb (by rw [← h1]; exact (hinv.logged x y hp).1)

theorem rowsDone_step (N : Nat) (dist : Nat → Nat → ℚ) (done : List Nat) (s : State) (i : Nat)
    (hinv : RowsDone N dist done s) (hi : i < N) (hid : i ∉ done) (hnd : done.Nodup)
    (hlt : ∀ r ∈ done, r < N) :
    RowsDone N dist (done ++ [i]) (rowLoop N dist i s) := by
  obtain ⟨hdc, hlog, hagg⟩ := rowPrefix_spec dist i s N
  refine ⟨?_, ?_, ?_, ?_, ?_⟩
  · intro a b
    unfold rowLoop
    rw [hdc]
    simp only [List.mem_append, List.mem_singleton]
    constructor
    · rintro (h | ⟨h1, h2, h3, _⟩ | ⟨h1, h2, h3, _⟩)
      · obtain ⟨k1, k2, k3, k4⟩ := (hinv.marked a b).mp h
        exact ⟨k1, k2, k3, k4.imp Or.inl Or.inl⟩
      · exact ⟨by omega, by omega, h2, Or.inl (Or.inr h1)⟩
      · exact ⟨by omega, h2, by omega, Or.inr (Or.inr h1)⟩
    · rintro ⟨k1, k2, k3, k4⟩
      by_cases hd : a ∈ done ∨ b ∈ done
      · exact Or.inl ((hinv.marked a b).mpr ⟨k1, k2, k3, hd⟩)
      · have had : a ∉ done := fun h => hd (Or.inl h)
        have hbd : b ∉ done := fun h => hd (Or.inr h)
        rcases k4 with (h | h) | (h | h)
        · exact absurd h had
        · right; left
          exact ⟨h, k3, by omega, hinv.unmarked i b hid hbd⟩
        · exact absurd h hbd
        · right; right
          exact ⟨h, k2, by omega, hinv.unmarked i a hid had⟩
  · unfold rowLoop
    rw [hagg, hlog, List.map_append, List.foldl_append, ← hinv.folded, List.map_map]
    rfl
  · intro a b hp
    unfold rowLoop at hp
    rw [hlog, List.mem_append] at hp
    rcases hp with hp | hp
    · obtain ⟨k1, k2, k3⟩ := hinv.logged a b hp
      exact ⟨List.mem_append_left _ k1, k2, k3⟩
    · obtain ⟨j, hj, he⟩ := List.mem_map.mp hp
      obtain ⟨h1, h2⟩ := Prod.mk.inj he
      obtain ⟨m1, m2, _⟩ := (mem_newCols N i s j).mp hj
      exact ⟨List.mem_append_right _ (by rw [← h1]; exact List.mem_singleton_self i),
        by omega, by omega⟩
  · intro a b hab ha hb hd
    unfold rowLoop
    rw [hlog, timesFolded_append, timesFolded_newPairs N i s a b hab]
    simp only [List.mem_append, List.mem_singleton] at hd
    by_cases hd2 : a ∈ done ∨ b ∈ done
    · rw [hinv.once a b hab ha hb hd2, if_neg]
      rintro (⟨h1, h2⟩ | ⟨h1, h2⟩)
      · have hm := ((mem_newCols N i s b).mp h2).2.2
        have ht := (hinv.marked i b).mpr ⟨by omega, hi, hb, by rw [← h1]; exact hd2⟩
        rw [ht] at hm
        exact absurd hm (by decide)
      · have hm := ((mem_newCols N i s a).mp h2).2.2
        have ht := (hinv.marked i a).mpr ⟨by omega, hi, ha, by rw [← h1]; exact hd2.symm⟩
        rw [ht] at hm
        exact absurd hm (by decide)
    · have had : a ∉ done := fun h => hd2 (Or.inl h)
      have hbd : b ∉ done := fun h => hd2 (Or.inr h)
      rw [timesFolded_eq_zero_of_not_done hinv a b had hbd, if_pos]
      rcases hd with (h | h) | (h | h)
      · exact absurd h had
      · exact Or.inl ⟨h, (mem_newCols N i s b).mpr ⟨hb, by omega, hinv.unmarked i b hid hbd⟩⟩
      · exact absurd h hbd
      · exact Or.inr ⟨h, (mem_newCols N i s a).mpr ⟨ha, by omega, hinv.unmarked i a hid had⟩⟩
  · unfold rowLoop
    rw [hlog, List.length_append, List.length_map, hinv.size,
      length_newCols N dist done s i hinv hi hid hnd hlt, List.length_append,
      List.length_singleton]
    rfl

theorem rowsDone_foldl (N : Nat) (dist : Nat → Nat → ℚ) (rows : List Nat) :
    ∀ (done : List Nat) (s : State), RowsDone N dist done s → (done ++ rows).Nodup →
      (∀ r ∈ done ++ rows, r < N) →
      RowsDone N dist (done ++ rows) (rows.foldl (fun st i => rowLoop N dist i st) s) := by
  induction rows with
  | nil =>
    intro done s hinv _ _
    simpa using hinv
  | cons i rest ih =>
    intro done s hinv hnd hlt
    have hsplit : done ++ i :: rest = (done ++ [i]) ++ rest := by simp
    rw [hsplit] at hnd hlt ⊢
    have hnd1 : (done ++ [i]).Nodup := (List.nodup_append.mp hnd).1
    have hnd0 : done.Nodup := (List.nodup_append.mp hnd1).1
    have hid : i ∉ done := by
      intro h
      exact (List.nodup_append.mp hnd1).2.2 h (List.mem_singleton_self i)
    have hi : i < N := hlt i (by simp)
    have hlt0 : ∀ r ∈ done, r < N := fun r hr => hlt r (by simp [hr])
    rw [List.foldl_cons]
    exact ih (done ++ [i]) (rowLoop N dist i s)
      (rowsDone_step N dist done s i hinv hi hid hnd0 hlt0) hnd hlt

/-! ## The row ranges of the workers -/

theorem rangeEnd_sub_rangeStart (N T k : Nat) :
    rangeEnd N T k - rangeStart N T k = N / T := by
  unfold rangeEnd
  exact Nat.add_sub_cancel_left _ _

theorem flatMap_blocks (q : Nat) (m : Nat) :
    (List.range m).flatMap (fun k => List.range' (q * k) q) = List.range (m * q) := by
  induction m with
  | zero => simp
  | succ m ih =>
    rw [List.range_succ, List.flatMap_append, ih, List.flatMap_singleton,
      List.range_eq_range', List.range_eq_range', Nat.succ_mul, Nat.add_comm (m * q) q,
      ← List.range'_append_1 0 (m * q) q, Nat.zero_add, Nat.mul_comm q m]

theorem rowsOf_perm (N T : Nat) (order : List Nat) (hperm : order.Perm (List.range T)) :
    (rowsOf N T order).Perm (List.range (T * (N / T))) := by
  have h := List.Perm.flatMap_right
    (fun k => List.range' (rangeStart N T k) (N / T)) hperm
  have e : (List.range T).flatMap (fun k => List.range' (rangeStart N T k) (N / T))
      = List.range (T * (N / T)) := flatMap_blocks (N / T) T
  rw [e] at h
  exact h

theorem runOrder_eq_foldl_rows (N T : Nat) (dist : Nat → Nat → ℚ) (order : List Nat) :
    ∀ s : State, runOrder N T dist order s
      = (rowsOf N T order).foldl (fun st i => rowLoop N dist i st) s := by
  induction order with
  | nil => intro s; rfl
  | cons k rest ih =>
    intro s
    unfold runOrder rowsOf at ih ⊢
    rw [List.foldl_cons, List.flatMap_cons, List.foldl_append, ih]
    unfold determineAverageAngularDistance
    simp only [rangeEnd_sub_rangeStart]

/-- Sequential runs in any order of the workers: the invariant holds at the end
with exactly the rows below `T * (N / T)` processed. -/
theorem rowsDone_runOrder (N T : Nat) (dist : Nat → Nat → ℚ) (order : List Nat)
    (hperm : order.Perm (List.range T)) :
    RowsDone N dist (rowsOf N T order) (runOrder N T dist order initState) := by
  have hp := rowsOf_perm N T order hperm
  have hnd : (rowsOf N T order).Nodup := hp.nodup_iff.mpr (List.nodup_range _)
  have hlt : ∀ r ∈ rowsOf N T order, r < N := by
    intro r hr
    have h1 : r < T * (N / T) := List.mem_range.mp (hp.mem_iff.mp hr)
    exact lt_of_lt_of_le h1 (Nat.mul_div_le N T)
  rw [runOrder_eq_foldl_rows]
  have h := rowsDone_foldl N dist (rowsOf N T order) [] initState (rowsDone_init N dist)
    (by simpa using hnd) (by simpa using hlt)
  simpa using h

theorem mem_rowsOf (N T : Nat) (order : List Nat) (hperm : order.Perm (List.range T))
    (a : Nat) : a ∈ rowsOf N T order ↔ a < T * (N / T) := by
  rw [(rowsOf_perm N T order hperm).mem_iff, List.mem_range]

theorem length_rowsOf (N T : Nat) (order : List Nat) (hperm : order.Perm (List.range T)) :
    (rowsOf N T order).length = T * (N / T) := by
  rw [(rowsOf_perm N T order hperm).length_eq, List.length_range]

/-! ## Counting the folded pairs -/

theorem two_mul_foldedAfter (N : Nat) :
    ∀ m, m ≤ N → 2 * foldedAfter N m + (N - m) * (N - m - 1) = N * (N - 1) := by
  intro m
  induction m with
  | zero => intro _; simp [foldedAfter]
  | succ m ih =>
    intro hm
    have h := ih (by omega)
    obtain ⟨u, hu⟩ : ∃ u, N = m + 1 + u := ⟨N - (m + 1), by omega⟩
    have e1 : N - m = u + 1 := by omega
    have e2 : N - m - 1 = u := by omega
    have e3 : N - (m + 1) = u := by omega
    have e4 : N - 1 - m = u := by omega
    rw [e1, Nat.add_sub_cancel] at h
    show 2 * (foldedAfter N m + (N - 1 - m)) + (N - (m + 1)) * (N - (m + 1) - 1) = N * (N - 1)
    rw [e3, e4, ← h]
    cases u with
    | zero => simp
    | succ v =>
      simp only [Nat.add_sub_cancel]
      ring

theorem foldedAfter_eq (N m : Nat) (hm : m ≤ N) :
    foldedAfter N m = N * (N - 1) / 2 - (N - m) * (N - m - 1) / 2 := by
  have h := two_mul_foldedAfter N m hm
  have hev : (N - m) * (N - m - 1) % 2 = 0 :=
    Nat.even_iff.mp (Nat.even_mul_pred_self (N - m))
  omega

theorem foldedAfter_eq_full_iff (N m : Nat) (hm : m ≤ N) :
    foldedAfter N m = N * (N - 1) / 2 ↔ N - m ≤ 1 := by
  have h := two_mul_foldedAfter N m hm
  constructor
  · intro hf
    by_contra hr
    obtain ⟨u, hu⟩ : ∃ u, N - m = u + 2 := ⟨N - m - 2, by omega⟩
    rw [hu] at h
    have e : (u + 2) * (u + 2 - 1) = u * u + 3 * u + 2 := by
      have e0 : u + 2 - 1 = u + 1 := by omega
      rw [e0]
      ring
    rw [e] at h
    have hev : N * (N - 1) % 2 = 0 := Nat.even_iff.mp (Nat.even_mul_pred_self N)
    omega
  · intro hr
    have e : (N - m) * (N - m - 1) = 0 := by
      rcases Nat.le_one_iff_eq_zero_or_eq_one.mp hr with h0 | h1
      · rw [h0]
      · rw [h1]
    rw [e] at h
    omega

/-- Count reached by a sequential run of the `T` workers in any order. -/
theorem runOrder_count (N T : Nat) (dist : Nat → Nat → ℚ) (order : List Nat)
    (hperm : order.Perm (List.range T)) :
    (runOrder N T dist order initState).agg.count = foldedAfter N (T * (N / T)) := by
  have hinv := rowsDone_runOrder N T dist order hperm
  rw [hinv.folded, foldl_lockedUpdate_count, List.length_map, hinv.size,
    length_rowsOf N T order hperm]
  simp [initAgg]

/-! ## Row ranges: what they cover -/

/-- The ranges of two different workers do not overlap. -/
theorem ranges_disjoint (N T k1 k2 : Nat) (h : k1 < k2) :
    rangeEnd N T k1 ≤ rangeStart N T k2 := by
  unfold rangeEnd rangeStart
  calc N / T * k1 + N / T = N / T * (k1 + 1) := by ring
    _ ≤ N / T * k2 := Nat.mul_le_mul_left _ h

/-- The union of the `T` ranges is `[0, T * (N / T))`. -/
theorem mem_some_range_iff (N T a : Nat) :
    (∃ k, k < T ∧ rangeStart N T k ≤ a ∧ a < rangeEnd N T k) ↔ a < T * (N / T) := by
  rw [← mem_rowsOf N T (List.range T) (List.Perm.refl _) a]
  unfold rowsOf rangeEnd
  simp only [List.mem_flatMap, List.mem_range, List.mem_range'_1]

/-- Claim C1.  With `NUM_STARS = 30000` and `max_threads = 7` every worker's
range ends at or before row 29995, so rows 29995 to 29999 of the catalog lie in
no worker's range: the union of the ranges is not `[0, N)`. -/
theorem last_rows_in_no_range :
    (∀ k, k < 7 → rangeEnd 30000 7 k ≤ 29995) ∧
    (∀ k, k < 7 → ¬ (rangeStart 30000 7 k ≤ 29999 ∧ 29999 < rangeEnd 30000 7 k)) ∧
    29999 < 30000 := by
  decide

/-! ## Sequential runs of the workers -/

/-- Claim C10.  Running the `T ≥ 1` workers to completion one after another, in
any order, from the zeroed matrix folds exactly once every unordered pair of
distinct rows below `N` that has an index below `T * (N / T)`, folds nothing
else (no other pair, no diagonal entry), and ends with
`count = N(N-1)/2 - r(r-1)/2` for `r = N - T * (N / T)`; that count is
`N(N-1)/2` exactly when `r ≤ 1`. -/
theorem sequential_run_folds_covered_pairs_once (N T : Nat) (dist : Nat → Nat → ℚ)
    (order : List Nat) (hT : 1 ≤ T) (hperm : order.Perm (List.range T)) :
    (∀ a b, a ≠ b → a < N → b < N → (a < T * (N / T) ∨ b < T * (N / T)) →
      timesFolded (runOrder N T dist order initState).log a b = 1) ∧
    (∀ a b, (a, b) ∈ (runOrder N T dist order initState).log →
      a ≠ b ∧ a < N ∧ b < N ∧ (a < T * (N / T) ∨ b < T * (N / T))) ∧
    (runOrder N T dist order initState).agg
      = ((runOrder N T dist order initState).log.map (fun p => dist p.1 p.2)).foldl
          lockedUpdate initAgg ∧
    (runOrder N T dist order initState).agg.count
      = N * (N - 1) / 2 - (N - T * (N / T)) * (N - T * (N / T) - 1) / 2 ∧
    ((runOrder N T dist order initState).agg.count = N * (N - 1) / 2
      ↔ N - T * (N / T) ≤ 1) := by
  have _hT := hT
  have hinv := rowsDone_runOrder N T dist order hperm
  have hmem := mem_rowsOf N T order hperm
  have hle : T * (N / T) ≤ N := Nat.mul_div_le N T
  refine ⟨?_, ?_, hinv.folded, ?_, ?_⟩
  · intro a b hab ha hb hd
    exact hinv.once a b hab ha hb (hd.imp (hmem a).mpr (hmem b).mpr)
  · intro a b hp
    obtain ⟨h1, h2, h3⟩ := hinv.logged a b hp
    have h4 : a < T * (N / T) := (hmem a).mp h1
    exact ⟨h3, by omega, h2, Or.inl h4⟩
  · rw [runOrder_count N T dist order hperm, foldedAfter_eq N _ hle]
  · rw [runOrder_count N T dist order hperm]
    exact foldedAfter_eq_full_iff N _ hle

theorem sequential_run_folds_covered_pairs_once_witness :
    timesFolded (runOrder 5 3 fixtureDist [2, 0, 1] initState).log 4 1 = 1 ∧
    (runOrder 5 3 fixtureDist [2, 0, 1] initState).agg.count = 9 :=
  ⟨(sequential_run_folds_covered_pairs_once 5 3 fixtureDist [2, 0, 1] (by decide)
      (by decide)).1 4 1 (by decide) (by decide) (by decide) (by decide),
   (sequential_run_folds_covered_pairs_once 5 3 fixtureDist [2, 0, 1] (by decide)
      (by decide)).2.2.2.1⟩

/-- Claim C2.  With `NUM_STARS = 30000` and `max_threads = 7` the workers, run
to completion one after another from the initial state, leave
`count = 449984990`, ten short of `N(N-1)/2 = 449985000`: the pairs among rows
29995 to 29999 are never folded. -/
theorem count_short_of_all_pairs (dist : Nat → Nat → ℚ) :
    (runWorkers 30000 7 dist).agg.count = 449984990 ∧
    30000 * (30000 - 1) / 2 = 449985000 := by
  refine ⟨?_, by norm_num⟩
  unfold runWorkers
  rw [runOrder_count 30000 7 dist (List.range 7) (List.Perm.refl _),
    foldedAfter_eq 30000 _ (Nat.mul_div_le 30000 7)]

/-- Claim C3.  The final aggregate depends on the worker count and on the order
of the workers: with `NUM_STARS = 30000`, one worker ends with
`count = 449985000` and seven workers with `count = 449984990`, for every
catalog; and on the four-point fixture with four workers the order 0,1,2,3 ends
with `max = 180` while the order 2,0,1,3 ends with `max = 90`. -/
theorem aggregate_depends_on_worker_count_and_order :
    (∀ dist : Nat → Nat → ℚ,
      (runWorkers 30000 1 dist).agg.count = 449985000 ∧
      (runWorkers 30000 7 dist).agg.count = 449984990) ∧
    (runOrder 4 4 fixtureDist [0, 1, 2, 3] initState).agg = ⟨90, 180, 105, 6⟩ ∧
    (runOrder 4 4 fixtureDist [2, 0, 1, 3] initState).agg = ⟨90, 90, 105, 6⟩ := by
  refine ⟨?_, ?_, ?_⟩
  rotate_left
  · simp [runOrder, determineAverageAngularDistance, rangeStart, rangeEnd, rowLoop,
      List.range, List.range.loop, List.range', cellStep, initState, setCell, lockedUpdate,
      initAgg, FLT_MAX, FLT_MIN, fixtureDist]
    norm_num
  · simp [runOrder, determineAverageAngularDistance, rangeStart, rangeEnd, rowLoop,
      List.range, List.range.loop, List.range', cellStep, initState, setCell, lockedUpdate,
      initAgg, FLT_MAX, FLT_MIN, fixtureDist]
    norm_num
  intro dist
  unfold runWorkers
  rw [runOrder_count 30000 1 dist (List.range 1) (List.Perm.refl _),
    runOrder_count 30000 7 dist (List.range 7) (List.Perm.refl _),
    foldedAfter_eq 30000 _ (Nat.mul_div_le 30000 1),
    foldedAfter_eq 30000 _ (Nat.mul_div_le 30000 7)]
  exact ⟨by norm_num, by norm_num⟩

/-- Claim C6 (as stated, refuted).  On the four-point fixture the workers end
with `mean = 105`, not `150`, both for one worker and for four. -/
theorem fixture_mean_is_not_150 :
    (runWorkers 4 1 fixtureDist).agg.mean ≠ 150 ∧
    (runWorkers 4 4 fixtureDist).agg.mean ≠ 150 := by
  constructor
  · simp [runWorkers, runOrder, determineAverageAngularDistance, rangeStart, rangeEnd, rowLoop,
      List.range, List.range.loop, List.range', cellStep, initState, setCell, lockedUpdate,
      initAgg, FLT_MAX, FLT_MIN, fixtureDist]
    norm_num
  · simp [runWorkers, runOrder, determineAverageAngularDistance, rangeStart, rangeEnd, rowLoop,
      List.range, List.range.loop, List.range', cellStep, initState, setCell, lockedUpdate,
      initAgg, FLT_MAX, FLT_MIN, fixtureDist]
    norm_num

/-- Claim C6 (amended).  For every distance function with the six fixture
values, the workers `0 .. T-1` run to completion in that order from the initial
state end with `count = 6`, `min = 90`, `max = 180`, `mean = 105`, identically
for `T = 1` and `T = 4`. -/
theorem fixture_aggregate (dist : Nat → Nat → ℚ)
    (h01 : dist 0 1 = 90) (h02 : dist 0 2 = 180) (h03 : dist 0 3 = 90)
    (h12 : dist 1 2 = 90) (h13 : dist 1 3 = 90) (h23 : dist 2 3 = 90)
    (hsym : ∀ i j, dist i j = dist j i) :
    (runWorkers 4 1 dist).agg = ⟨90, 180, 105, 6⟩ ∧
    (runWorkers 4 4 dist).agg = ⟨90, 180, 105, 6⟩ := by
  have _hsym := hsym
  constructor
  · simp [runWorkers, runOrder, determineAverageAngularDistance, rangeStart, rangeEnd, rowLoop,
      List.range, List.range.loop, List.range', cellStep, initState, setCell, lockedUpdate,
      initAgg, FLT_MAX, FLT_MIN, h01, h02, h03, h12, h13, h23]
    norm_num
  · simp [runWorkers, runOrder, determineAverageAngularDistance, rangeStart, rangeEnd, rowLoop,
      List.range, List.range.loop, List.range', cellStep, initState, setCell, lockedUpdate,
      initAgg, FLT_MAX, FLT_MIN, h01, h02, h03, h12, h13, h23]
    norm_num

theorem fixture_aggregate_witness :
    (runWorkers 4 1 fixtureDist).agg = ⟨90, 180, 105, 6⟩ ∧
    (runWorkers 4 4 fixtureDist).agg = ⟨90, 180, 105, 6⟩ :=
  fixture_aggregate fixtureDist (by simp [fixtureDist]) (by simp [fixtureDist])
    (by simp [fixtureDist]) (by simp [fixtureDist]) (by simp [fixtureDist])
    (by simp [fixtureDist]) (by
      intro i j
      unfold fixtureDist
      by_cases h : (i = 0 ∧ j = 2) ∨ (i = 2 ∧ j = 0)
      · rw [if_pos h, if_pos (by tauto)]
      · rw [if_neg h, if_neg (by tauto)])

/-! ## Interleaved workers -/

theorem stepsAlone_add (N T : Nat) (dist : Nat → Nat → ℚ) (k m n : Nat) :
    ∀ p : Thread × State,
      stepsAlone N T dist k (m + n) p = stepsAlone N T dist k n (stepsAlone N T dist k m p) := by
  induction m with
  | zero => intro p; rw [Nat.zero_add]; rfl
  | succ m ih =>
    intro p
    rw [Nat.succ_add]
    exact ih _

/-- Steps of one pass through the body of the inner loop. -/
theorem cell_steps (N T : Nat) (dist : Nat → Nat → ℚ) (k i j : Nat) (s : State)
    (hi : i < rangeEnd N T k) (hj : j < N) :
    ∃ n, stepsAlone N T dist k n (⟨i, j, Loc.check⟩, s)
      = (⟨i, j + 1, Loc.check⟩, cellStep dist i j s) := by
  by_cases hc : i ≠ j ∧ s.distance_calculated i j = false
  · refine ⟨4, ?_⟩
    rw [cellStep_of_pass dist i j s hc]
    simp only [stepsAlone, stepThread, if_pos hi, if_pos hj, if_pos hc]
  · refine ⟨1, ?_⟩
    rw [cellStep_of_skip dist i j s hc]
    simp only [stepsAlone, stepThread, if_pos hi, if_pos hj, if_neg hc]

/-- Steps of the first `j` iterations of the inner loop on row `i`. -/
theorem rowPrefix_steps (N T : Nat) (dist : Nat → Nat → ℚ) (k i : Nat) (s : State)
    (hi : i < rangeEnd N T k) :
    ∀ j, j ≤ N → ∃ n, stepsAlone N T dist k n (⟨i, 0, Loc.check⟩, s)
      = (⟨i, j, Loc.check⟩, (List.range j).foldl (fun st c => cellStep dist i c st) s) := by
  intro j
  induction j with
  | zero => intro _; exact ⟨0, rfl⟩
  | succ j ih =>
    intro hj
    obtain ⟨n1, h1⟩ := ih (by omega)
    obtain ⟨n2, h2⟩ := cell_steps N T dist k i j
      ((List.range j).foldl (fun st c => cellStep dist i c st) s) hi (by omega)
    refine ⟨n1 + n2, ?_⟩
    rw [stepsAlone_add, h1, h2, List.range_succ, List.foldl_append]
    rfl

/-- Steps of one full row. -/
theorem row_steps (N T : Nat) (dist : Nat → Nat → ℚ) (k i : Nat) (s : State)
    (hi : i < rangeEnd N T k) :
    ∃ n, stepsAlone N T dist k n (⟨i, 0, Loc.check⟩, s)
      = (⟨i + 1, 0, Loc.check⟩, rowLoop N dist i s) := by
  obtain ⟨n1, h1⟩ := rowPrefix_steps N T dist k i s hi N (Nat.le_refl N)
  refine ⟨n1 + 1, ?_⟩
  rw [stepsAlone_add, h1]
  simp only [stepsAlone, stepThread, if_pos hi, if_neg (Nat.lt_irrefl N)]
  rfl

/-- Steps of the first `m` rows of worker `k`. -/
theorem rows_steps (N T : Nat) (dist : Nat → Nat → ℚ) (k : Nat) (s : State) :
    ∀ m, m ≤ N / T → ∃ n, stepsAlone N T dist k n (threadStart N T k, s)
      = (⟨rangeStart N T k + m, 0, Loc.check⟩,
         (List.range' (rangeStart N T k) m).foldl (fun st i => rowLoop N dist i st) s) := by
  intro m
  induction m with
  | zero => intro _; exact ⟨0, rfl⟩
  | succ m ih =>
    intro hm
    obtain ⟨n1, h1⟩ := ih (by omega)
    have hi : rangeStart N T k + m < rangeEnd N T k := by
      unfold rangeEnd
      omega
    obtain ⟨n2, h2⟩ := row_steps N T dist k (rangeStart N T k + m)
      ((List.range' (rangeStart N T k) m).foldl (fun st i => rowLoop N dist i st) s) hi
    refine ⟨n1 + n2, ?_⟩
    rw [stepsAlone_add, h1, h2, List.range'_1_concat, List.foldl_append]
    rfl

/-- A worker that runs alone returns after finitely many steps, and the shared
state it leaves is the one `determineAverageAngularDistance` computes: the
step relation and the sequential embedding agree. -/
theorem worker_alone_runs_to_completion (N T : Nat) (dist : Nat → Nat → ℚ) (k : Nat)
    (s : State) :
    ∃ n, stepsAlone N T dist k n (threadStart N T k, s)
      = (⟨rangeEnd N T k, 0, Loc.finished⟩, determineAverageAngularDistance N T dist k s) := by
  obtain ⟨n1, h1⟩ := rows_steps N T dist k s (N / T) (Nat.le_refl _)
  refine ⟨n1 + 1, ?_⟩
  rw [stepsAlone_add, h1]
  have hend : ¬ rangeStart N T k + N / T < rangeEnd N T k := by
    unfold rangeEnd
    omega
  simp only [stepsAlone, stepThread, if_neg hend]
  unfold determineAverageAngularDistance
  simp only [rangeEnd_sub_rangeStart]
  rfl

/-- Claim C8.  Two workers on a two-row catalog, under the interleaving
`racySchedule`: both workers return, both passed the test of line 73 for the
pair `{0, 1}`, and the pair is folded twice (`count = 2`), whereas the run in
which worker 0 completes before worker 1 starts folds it once. -/
theorem pair_folded_twice_under_interleaving (dist : Nat → Nat → ℚ) :
    (runSchedule 2 2 dist racySchedule (initSys 2 2)).threads.map (fun t => t.loc)
      = [Loc.finished, Loc.finished] ∧
    (runSchedule 2 2 dist racySchedule (initSys 2 2)).shared.log = [(0, 1), (1, 0)] ∧
    timesFolded (runSchedule 2 2 dist racySchedule (initSys 2 2)).shared.log 0 1 = 2 ∧
    (runSchedule 2 2 dist racySchedule (initSys 2 2)).shared.agg.count = 2 ∧
    (runSchedule 2 2 dist serialSchedule (initSys 2 2)).threads.map (fun t => t.loc)
      = [Loc.finished, Loc.finished] ∧
    (runSchedule 2 2 dist serialSchedule (initSys 2 2)).shared.log = [(0, 1)] ∧
    (runSchedule 2 2 dist serialSchedule (initSys 2 2)).shared.agg.count = 1 ∧
    (runWorkers 2 2 dist).log = [(0, 1)] := by
  have hlog : (runSchedule 2 2 dist racySchedule (initSys 2 2)).shared.log
      = [(0, 1), (1, 0)] := by
    simp [runSchedule, racySchedule, stepSys, stepThread, initSys, threadStart, rangeStart,
      rangeEnd, initState, setCell, List.range, List.range.loop]
  refine ⟨?_, hlog, ?_, ?_, ?_, ?_, ?_, ?_⟩
  · simp [runSchedule, racySchedule, stepSys, stepThread, initSys, threadStart, rangeStart,
      rangeEnd, initState, setCell, List.range, List.range.loop]
  · rw [hlog]
    decide
  · simp [runSchedule, racySchedule, stepSys, stepThread, initSys, threadStart, rangeStart,
      rangeEnd, initState, setCell, List.range, List.range.loop, lockedUpdate, initAgg]
  · simp [runSchedule, serialSchedule, stepSys, stepThread, initSys, threadStart, rangeStart,
      rangeEnd, initState, setCell, List.range, List.range.loop]
  · simp [runSchedule, serialSchedule, stepSys, stepThread, initSys, threadStart, rangeStart,
      rangeEnd, initState, setCell, List.range, List.range.loop]
  · simp [runSchedule, serialSchedule, stepSys, stepThread, initSys, threadStart, rangeStart,
      rangeEnd, initState, setCell, List.range, List.range.loop, lockedUpdate, initAgg]
  · simp [runWorkers, runOrder, determineAverageAngularDistance, rangeStart, rangeEnd, rowLoop,
      List.range, List.range.loop, List.range', cellStep, initState, setCell]

/-! ## The `-t` option -/

theorem scanArgs_skip (pre : List String) (tail : List String)
    (hpre : ∀ a ∈ pre, a ≠ "-help" ∧ a ≠ "-t") :
    scanArgs (pre ++ tail) = scanArgs tail := by
  induction pre with
  | nil => rfl
  | cons a rest ih =>
    have ha := hpre a (List.mem_cons_self a rest)
    simp only [List.cons_append, scanArgs, if_neg ha.1, if_neg ha.2]
    exact ih (fun x hx => hpre x (List.mem_cons_of_mem a hx))

theorem atoi_range (v : String) (x : Int) (h : atoi v = some x) :
    -2147483648 ≤ x ∧ x ≤ 2147483647 := by
  unfold atoi at h
  by_cases hr : -2147483648 ≤ decimalValue v ∧ decimalValue v ≤ 2147483647
  · rw [if_pos hr] at h
    rw [← Option.some.inj h]
    exact hr
  · rw [if_neg hr] at h
    exact absurd h (by simp)

theorem toUInt32_of_nonpos (x : Int) (hlo : -2147483648 ≤ x) (hx : x < 1) :
    (toUInt32 x : Int) = if x = 0 then 0 else 4294967296 + x := by
  have h0 : 0 ≤ x % 4294967296 := Int.emod_nonneg x (by norm_num)
  unfold toUInt32
  rw [Int.toNat_of_nonneg h0]
  by_cases hz : x = 0
  · rw [if_pos hz, hz]
    rfl
  · rw [if_neg hz]
    omega

/-- Claim C9 (as stated, refuted).  The arguments `-t 0` store 0 in
`max_threads` and `-t -1` store 4294967295: neither is rejected.  With `-t 0`
and a readable catalog no worker is created and the run ends by printing the
initial accumulators, not in an error. -/
theorem worker_count_zero_is_not_rejected :
    scanArgs ["-t", "0"] = Scan.threads 0 ∧
    scanArgs ["-t", "-1"] = Scan.threads 4294967295 ∧
    mainOutcome 30000 fixtureDist true true ["findAngular", "-t", "0"]
      = some (Outcome.report 0 FLT_MAX FLT_MIN) := by
  refine ⟨by decide, by decide, ?_⟩
  have h : scanArgs ["-t", "0"] = Scan.threads 0 := by decide
  simp [mainOutcome, h, runWorkers, runOrder, initState, initAgg]

/-- Claim C9 (amended).  A supplied worker count below 1 is not rejected: when
the text `v` after the first `-t` (no `-help` before it) denotes an `int`
`x < 1`, the scan stores `x` converted to `uint32_t` in `max_threads`, that is
0 for `x = 0` and `4294967296 + x` for negative `x`; and for `x = 0`, with the
matrix allocated and the catalog read, no worker is created and the program
prints the initial accumulators `mean = 0`, `min = FLT_MAX`, `max = FLT_MIN`. -/
theorem worker_count_below_one_is_stored (pre : List String) (v : String)
    (rest : List String) (x : Int) (hpre : ∀ a ∈ pre, a ≠ "-help" ∧ a ≠ "-t")
    (hv : atoi v = some x) (hx : x < 1) :
    scanArgs (pre ++ "-t" :: v :: rest) = Scan.threads (toUInt32 x) ∧
    (toUInt32 x : Int) = (if x = 0 then 0 else 4294967296 + x) ∧
    (x = 0 → ∀ (prog : String) (N : Nat) (dist : Nat → Nat → ℚ),
      mainOutcome N dist true true (prog :: (pre ++ "-t" :: v :: rest))
        = some (Outcome.report 0 FLT_MAX FLT_MIN)) := by
  have h : scanArgs (pre ++ "-t" :: v :: rest) = Scan.threads (toUInt32 x) := by
    rw [scanArgs_skip pre _ hpre]
    simp [scanArgs, hv]
  refine ⟨h, toUInt32_of_nonpos x (atoi_range v x hv).1 hx, ?_⟩
  intro hz prog N dist
  have h2 : scanArgs (pre ++ "-t" :: v :: rest) = Scan.threads 0 := by
    rw [h, hz]
    rfl
  simp [mainOutcome, h2, runWorkers, runOrder, initState, initAgg]

theorem worker_count_below_one_is_stored_witness :
    atoi "-1" = some (-1) ∧ (-1 : Int) < 1 ∧
    scanArgs ([] ++ "-t" :: "-1" :: []) = Scan.threads (toUInt32 (-1)) ∧
    (toUInt32 (-1) : Int) = 4294967295 :=
  ⟨by decide, by decide,
   (worker_count_below_one_is_stored [] "-1" [] (-1) (by simp) (by decide) (by decide)).1,
   (worker_count_below_one_is_stored [] "-1" [] (-1) (by simp) (by decide) (by decide)).2.1⟩

end StarCatalog
